import Mathlib

/-!
Verification development for the NLP-backtest repository.

Shallow embedding conventions:
* prices and cash are modelled as `ℚ` (the Python code uses IEEE floats;
  all claim-relevant comparisons are order comparisons on finite values),
* calendar dates are modelled as `ℤ` (whole days; `pd.Timestamp` subtraction
  `.days` on date-resolution stamps is integer day difference),
* instrument identifiers ("symbol" strings) are modelled as `ℕ`; pandas
  sorts symbols by a total order and only the order is relevant,
* a pandas `NaN` produced by `shift`/`pct_change` is modelled as
  `Option.none`; every comparison against `none` is `false`, exactly as
  a comparison against `NaN` is `False` in pandas,
* real-valued statistics (Sharpe ratio) are modelled over `ℝ` because the
  formulas contain square roots and real powers.

Source files embedded: `portfolio_backtester.py` (`PortfolioBacktester`),
`backtester.py` (`Backtester.run`), `report_generator.py`
(`ReportGenerator._extra_metrics_from_trades`, `ReportGenerator.summary`),
`nlp_backtest_workflow.py` (`calculate_sharpe_ratio`).
-/

namespace NB

/-! ### Definitions -/

/-- One row of the normalized price panel: `{symbol, date, open, close}`
(`open` is a Lean keyword, hence the field name `opn`). -/
structure PRow where
  sym : ℕ
  date : ℤ
  opn : ℚ
  close : ℚ
  deriving DecidableEq, Repr

/-- Row of the panel after `run_sector_strategy` has added the
`trailing_high` and `drop_from_high` columns (lines 66-71 of
`portfolio_backtester.py`); `none` models a `NaN` entry. -/
structure ARow where
  sym : ℕ
  date : ℤ
  opn : ℚ
  close : ℚ
  trailingHigh : Option ℚ
  dropFromHigh : Option ℚ
  deriving DecidableEq, Repr

/-- Maximum of a list of rationals, `none` on the empty list.  This models
`rolling(..., min_periods=1).max()` applied to a window: NaN values
(the shifted-in leading NaN) are skipped by pandas, which on the
per-symbol series is the same as taking the window of really available
previous closes. -/
def listMaxQ : List ℚ → Option ℚ
  | [] => none
  | x :: xs =>
    some (match listMaxQ xs with
      | none => x
      | some m => max x m)

/-- `trailing_high` of the row with per-symbol index `i`:
`close.shift(1).rolling(lookback, min_periods=1).max()` evaluated at `i`,
i.e. the maximum of the closes at per-symbol indices
`i-lookback, …, i-1` (clipped at the start of the series), and `none`
(NaN) at `i = 0`. -/
def trailingHighAt (lb : ℕ) (closes : List ℚ) (i : ℕ) : Option ℚ :=
  listMaxQ ((closes.take i).drop (i - lb))

/-- The close series of one symbol, in panel order — the series
`groupby("symbol")["close"]` hands to the rolling transform. -/
def symCloses (panel : List PRow) (s : ℕ) : List ℚ :=
  (panel.filter (fun r => decide (r.sym = s))).map PRow.close

/-- Per-symbol index of the row at panel position `k`: how many earlier
panel rows carry the same symbol. -/
def symIdxOf (panel : List PRow) (k : ℕ) (s : ℕ) : ℕ :=
  ((panel.take k).filter (fun r => decide (r.sym = s))).length

/-- Lines 66-71 of `portfolio_backtester.py`: add the `trailing_high`
column (per-symbol shifted rolling max) and the `drop_from_high` column
`open / trailing_high - 1` to every row, aligned back to panel order as
`groupby(...).transform` does. -/
def annotate (lb : ℕ) (panel : List PRow) : List ARow :=
  panel.enum.map (fun kr =>
    let k := kr.1
    let r := kr.2
    let th := trailingHighAt lb (symCloses panel r.sym) (symIdxOf panel k r.sym)
    ⟨r.sym, r.date, r.opn, r.close, th, th.map (fun h => r.opn / h - 1)⟩)

/-- Line 116 of `portfolio_backtester.py`: the entry-eligibility test
`drop_from_high <= -drop_pct`; a NaN `drop_from_high` compares as false. -/
def eligible (dp : ℚ) (a : ARow) : Bool :=
  match a.dropFromHigh with
  | none => false
  | some x => decide (x ≤ -dp)

def c1Panel : List PRow := [⟨0, 0, 100, 100⟩, ⟨0, 1, 90, 90⟩]

def c1Row : ARow := ⟨0, 1, 90, 90, some 100, some (90 / 100 - 1)⟩

/-! ## Portfolio simulation (`PortfolioBacktester.run_sector_strategy`) -/
/-- An open position in the portfolio simulator: the value stored in the
`positions` dict (lines 128-132 of `portfolio_backtester.py`). -/
structure Pos where
  entryPrice : ℚ
  shares : ℚ
  entryDate : ℤ
  deriving DecidableEq, Repr

/-- A closed trade appended to the portfolio ledger (lines 101-109).
The dict written there has exactly the keys listed in `pTradeFields`. -/
structure PTrade where
  sym : ℕ
  entryDate : ℤ
  exitDate : ℤ
  entryPrice : ℚ
  exitPrice : ℚ
  ret : ℚ
  exitReason : String
  deriving DecidableEq, Repr

/-- The keys of the trade dict appended by the portfolio simulator
(lines 101-109 of `portfolio_backtester.py`). -/
def pTradeFields : List String :=
  ["symbol", "entry_date", "exit_date", "entry_price", "exit_price", "return",
    "exit_reason"]

/-- The keys of the trade dict appended by the single-instrument simulator
(lines 160-170 of `backtester.py`). -/
def singleTradeKeys : List String :=
  ["symbol", "side", "entry_date", "entry_price", "exit_date", "exit_price",
    "return", "holding_days", "exit_reason"]

/-- State carried across the daily loop of `run_sector_strategy`:
`positions` models the insertion-ordered Python dict, `trades` and
`equity` the growing ledger and equity curve. -/
structure PState where
  positions : List (ℕ × Pos)
  cash : ℚ
  trades : List PTrade
  equity : List (ℤ × ℚ)
  deriving DecidableEq, Repr

def initState (startCap : ℚ) : PState := ⟨[], startCap, [], []⟩

/-- Exit decision of the portfolio simulator (lines 92-97): take-profit is
checked first, then stop-loss; `none` means the position stays open. -/
def pExitReason (ret tp sl : ℚ) : Option String :=
  if ret ≥ tp then some "take_profit"
  else if ret ≤ -sl then some "stop_loss"
  else none

/-- `sym in positions.keys()` (line 117). -/
def hasPos (ps : List (ℕ × Pos)) (s : ℕ) : Bool :=
  (ps.find? (fun q => decide (q.1 = s))).isSome

/-- `positions[sym] = {...}` on the insertion-ordered dict: update in
place if the key exists, else append. -/
def setPos : List (ℕ × Pos) → ℕ → Pos → List (ℕ × Pos)
  | [], s, p => [(s, p)]
  | (s', p') :: rest, s, p =>
    if s' = s then (s, p) :: rest else (s', p') :: setPos rest s p

/-- The exit loop (lines 84-110): iterate over the open positions in
dict order; a position with a price row today exits with the
`pExitReason` decision, adding the proceeds to cash and a trade to the
ledger; positions without a row today, or with no exit condition met,
are kept. -/
def exitPhase (tp sl : ℚ) (dayData : List ARow) (d : ℤ) :
    List (ℕ × Pos) → ℚ → List PTrade → List (ℕ × Pos) × ℚ × List PTrade
  | [], cash, tr => ([], cash, tr)
  | (s, pos) :: rest, cash, tr =>
    match dayData.find? (fun a => decide (a.sym = s)) with
    | none =>
      let r := exitPhase tp sl dayData d rest cash tr
      ((s, pos) :: r.1, r.2.1, r.2.2)
    | some row =>
      let price := row.close
      let ret := price / pos.entryPrice - 1
      match pExitReason ret tp sl with
      | none =>
        let r := exitPhase tp sl dayData d rest cash tr
        ((s, pos) :: r.1, r.2.1, r.2.2)
      | some reason =>
        exitPhase tp sl dayData d rest (cash + price * pos.shares)
          (tr ++ [⟨s, pos.entryDate, d, pos.entryPrice, price, ret, reason⟩])

/-- The eligible entry candidates of a day (lines 115-118): rows whose
`drop_from_high <= -drop_pct` and whose symbol has no open position. -/
def entryCands (dp : ℚ) (dayData : List ARow) (ps : List (ℕ × Pos)) : List ARow :=
  dayData.filter (fun a => eligible dp a && !(hasPos ps a.sym))

/-- `max_new = int(available_fraction // allocation_per_trade)`
(lines 120-121), with `open_trades` the current number of open
positions. -/
def entryMaxNew (f : ℚ) (openT : ℕ) : ℕ :=
  (Int.floor ((1 - (openT : ℚ) * f) / f)).toNat

/-- The admission loop over `candidates.head(max_new)` (lines 122-127):
a candidate is skipped when `cash < invest_amt` (cash unchanged),
otherwise admitted with `invest_amt` deducted.  Returns the admitted rows
in order together with the remaining cash. -/
def entrySelect (inv : ℚ) : List ARow → ℚ → List ARow × ℚ
  | [], cash => ([], cash)
  | r :: rest, cash =>
    if cash < inv then entrySelect inv rest cash
    else
      let p := entrySelect inv rest (cash - inv)
      (r :: p.1, p.2)

/-- Modelled from the spec: the admission loop in which a candidate that
is skipped for lack of cash does **not** consume an admission slot — the
whole (untruncated) candidate list is scanned and only actual admissions
count toward the day's cap (`"a candidate is additionally skipped
(without consuming a slot) if available cash < starting_capital * f"`).
This is the comparison semantics for claim C3; the code's loop is
`entrySelect` over `candidates.take max_new`. -/
def entrySelectSpec (inv : ℚ) : List ARow → ℚ → ℕ → List ARow × ℚ
  | _, cash, 0 => ([], cash)
  | [], cash, _ + 1 => ([], cash)
  | r :: rest, cash, k + 1 =>
    if cash < inv then entrySelectSpec inv rest cash (k + 1)
    else
      let p := entrySelectSpec inv rest (cash - inv) k
      (r :: p.1, p.2)

/-- The entry block of a day (lines 113-127): gated on
`open_trades * allocation_per_trade < 1.0` and on a nonempty candidate
list; admits from `candidates.head(max_new)` subject to cash. -/
def entryAdmitted (dp startCap f : ℚ) (dayData : List ARow)
    (ps : List (ℕ × Pos)) (cash : ℚ) : List ARow × ℚ :=
  if (ps.length : ℚ) * f < 1 then
    if entryCands dp dayData ps = [] then ([], cash)
    else
      entrySelect (startCap * f)
        ((entryCands dp dayData ps).take (entryMaxNew f ps.length)) cash
  else ([], cash)

/-- Lines 126-132: an admitted row opens a position at its open price with
`shares = invest_amt / open`. -/
def entryApply (startCap f : ℚ) (d : ℤ) (ps : List (ℕ × Pos))
    (admitted : List ARow) : List (ℕ × Pos) :=
  admitted.foldl
    (fun acc a => setPos acc a.sym ⟨a.opn, (startCap * f) / a.opn, d⟩) ps

/-- Mark-to-market value of the open positions (lines 134-140): positions
without a price row today contribute nothing. -/
def equityVal (dayData : List ARow) (ps : List (ℕ × Pos)) : ℚ :=
  ps.foldl
    (fun acc q =>
      match dayData.find? (fun a => decide (a.sym = q.1)) with
      | none => acc
      | some row => acc + q.2.shares * row.close) 0

/-- The state after the exit loop of day `d` (the first checkpoint of a
day). -/
def dayExitSt (tp sl : ℚ) (ann : List ARow) (d : ℤ) (st : PState) : PState :=
  let dayData := ann.filter (fun a => decide (a.date = d))
  let r := exitPhase tp sl dayData d st.positions st.cash st.trades
  ⟨r.1, r.2.1, r.2.2, st.equity⟩

/-- The state after the entry block of day `d`. -/
def dayEntrySt (dp startCap f : ℚ) (ann : List ARow) (d : ℤ) (st : PState) :
    PState :=
  let dayData := ann.filter (fun a => decide (a.date = d))
  let r := entryAdmitted dp startCap f dayData st.positions st.cash
  ⟨entryApply startCap f d st.positions r.1, r.2, st.trades, st.equity⟩

/-- One iteration of the daily loop (lines 80-142): exits, then entries,
then the equity point `cash + market value`. -/
def dayStep (dp startCap f sl tp : ℚ) (ann : List ARow) (st : PState) (d : ℤ) :
    PState :=
  let st1 := dayExitSt tp sl ann d st
  let st2 := dayEntrySt dp startCap f ann d st1
  let dayData := ann.filter (fun a => decide (a.date = d))
  ⟨st2.positions, st2.cash, st2.trades,
    st2.equity ++ [(d, st2.cash + equityVal dayData st2.positions)]⟩

/-- `sorted(df["date"].unique())` (line 78). -/
def datesOf (panel : List PRow) : List ℤ :=
  ((panel.map PRow.date).dedup).insertionSort (· ≤ ·)

/-- The whole simulation `run_sector_strategy` on the (sector-filtered)
panel: fold the daily step over the sorted unique dates, starting from
all-cash. -/
def runSector (lb : ℕ) (dp f sl tp startCap : ℚ) (panel : List PRow) : PState :=
  (datesOf panel).foldl (dayStep dp startCap f sl tp (annotate lb panel))
    (initState startCap)

/-- The simulation stopped after the first `n` days — the reachable
end-of-day states. -/
def runPrefix (lb : ℕ) (dp f sl tp startCap : ℚ) (panel : List PRow) (n : ℕ) :
    PState :=
  ((datesOf panel).take n).foldl (dayStep dp startCap f sl tp (annotate lb panel))
    (initState startCap)

/-! ## Single-instrument simulation (`Backtester.run`) -/
/-- One row of the single-symbol daily series (already filtered to one
symbol, deduplicated, sorted by date). -/
structure SRow where
  date : ℤ
  close : ℚ
  deriving DecidableEq, Repr

/-- The exit rule's condition dict: `period_days`, `threshold`,
`direction`, and the optional `stop_loss` / `take_profit` thresholds
(lines 94-99 of `backtester.py`). -/
structure XRule where
  x_period : ℕ
  x_thr : ℚ
  x_dir : String
  stopLoss : Option ℚ
  takeProfit : Option ℚ
  deriving DecidableEq, Repr

/-- A row extended with the precomputed boolean signal columns
`entry_signal`, `exit_signal`, `exit_reason_sl`, `exit_reason_tp`
(lines 84-122). -/
structure SigRow where
  date : ℤ
  close : ℚ
  entrySig : Bool
  exitSig : Bool
  slSig : Bool
  tpSig : Bool
  deriving DecidableEq, Repr

/-- `close.pct_change(periods=p)` at row index `i`: `none` (NaN) for the
first `p` rows, else `close[i]/close[i-p] - 1`. -/
def pctChange (rows : List SRow) (p i : ℕ) : Option ℚ :=
  if p ≤ i then
    match rows.get? i, rows.get? (i - p) with
    | some a, some b => some (a.close / b.close - 1)
    | _, _ => none
  else none

/-- Directional signal (lines 85-90 and 104-109): `down` compares
`change <= -thr`, `up` compares `change >= thr`, any other direction is
the constant-false fallback; a NaN change is false. -/
def dirSignal (dir : String) (thr : ℚ) : Option ℚ → Bool
  | some c =>
    if dir = "down" then decide (c ≤ -thr)
    else if dir = "up" then decide (thr ≤ c)
    else false
  | none => false

/-- `exit_change <= -stop_loss` when a stop-loss is configured, else
false (line 111); NaN compares false. -/
def slSignal (sl : Option ℚ) (c : Option ℚ) : Bool :=
  match sl, c with
  | some s, some x => decide (x ≤ -s)
  | _, _ => false

/-- `exit_change >= take_profit` when a take-profit is configured, else
false (line 112); NaN compares false. -/
def tpSignal (tp : Option ℚ) (c : Option ℚ) : Bool :=
  match tp, c with
  | some t, some x => decide (t ≤ x)
  | _, _ => false

/-- Signal preparation of `Backtester.run` (lines 78-122): per-row entry
signal from the entry condition, and — when an exit rule exists — exit
signal as base-rule OR stop-loss OR take-profit on the exit change
series. -/
def mkSigRows (rows : List SRow) (eP : ℕ) (eThr : ℚ) (eDir : String)
    (xr : Option XRule) : List SigRow :=
  rows.enum.map (fun kr =>
    let i := kr.1
    let r := kr.2
    let eSig := dirSignal eDir eThr (pctChange rows eP i)
    match xr with
    | none => ⟨r.date, r.close, eSig, false, false, false⟩
    | some x =>
      let c := pctChange rows x.x_period i
      let base := dirSignal x.x_dir x.x_thr c
      let sl := slSignal x.stopLoss c
      let tp := tpSignal x.takeProfit c
      ⟨r.date, r.close, eSig, base || sl || tp, sl, tp⟩)

/-- A row of the single-instrument trade ledger (lines 160-170), with
the `side` and `holding_days` fields. -/
structure STrade where
  symbol : String
  side : String
  entryDate : ℤ
  entryPrice : ℚ
  exitDate : ℤ
  exitPrice : ℚ
  ret : ℚ
  holdingDays : ℤ
  exitReason : String
  deriving DecidableEq, Repr

/-- Loop state of the trade simulation (lines 125-131): signed position,
entry bookkeeping (meaningful only while `position ≠ 0`, mirroring the
`None` placeholders), and the ledger built so far. -/
structure LState where
  position : ℤ
  side : ℤ
  entryPrice : ℚ
  entryDate : ℤ
  trades : List STrade
  deriving DecidableEq, Repr

/-- Exit-reason priority of the single-instrument simulator
(lines 148-152): `"rule_exit"` unless the take-profit sub-signal fired
(then `"take_profit"`), else if the stop-loss sub-signal fired
(`"stop_loss"`). -/
def sExitReason (tpSig slSig : Bool) : String :=
  if tpSig then "take_profit" else if slSig then "stop_loss" else "rule_exit"

/-- One iteration of the ledger loop (lines 133-177): a flat state opens
on an entry signal (and does nothing else that day); a non-flat state
closes on an exit signal, appending the trade with
`holding_days = (exit_date - entry_date).days`. -/
def ledgerStep (symbol action : String) (st : LState) (sr : SigRow) : LState :=
  if st.position = 0 then
    if sr.entrySig then
      let side : ℤ := if action = "buy" then 1 else -1
      ⟨side, side, sr.close, sr.date, st.trades⟩
    else st
  else if sr.exitSig then
    let reason := sExitReason sr.tpSig sr.slSig
    let gross := (sr.close / st.entryPrice - 1) * st.side
    ⟨0, 0, 0, 0,
      st.trades ++ [⟨symbol, if st.side = 1 then "long" else "short",
        st.entryDate, st.entryPrice, sr.date, sr.close, gross,
        sr.date - st.entryDate, reason⟩]⟩
  else st

/-- The ledger-producing part of `Backtester.run` for one symbol's sorted
daily series. -/
def singleRun (symbol action : String) (eP : ℕ) (eThr : ℚ) (eDir : String)
    (xr : Option XRule) (rows : List SRow) : LState :=
  (mkSigRows rows eP eThr eDir xr).foldl (ledgerStep symbol action)
    ⟨0, 0, 0, 0, []⟩

/-- A three-day one-symbol panel used by the concrete witnesses: a 10%
drop on day 1 triggers an entry, the day-2 close takes profit. -/
def exPanel : List PRow := [⟨0, 0, 100, 100⟩, ⟨0, 1, 90, 90⟩, ⟨0, 2, 95, 95⟩]

/-! ## Deterministic admission order (claim C6) -/
/-- Strict lexicographic order on `(symbol, date)`: the order of the
panel after `sort_values(["symbol", "date"])` plus uniqueness of
`(symbol, date)` pairs. -/
def rowLex (a b : PRow) : Prop :=
  a.sym < b.sym ∨ (a.sym = b.sym ∧ a.date < b.date)

instance : DecidableRel rowLex := fun a b => by
  unfold rowLex
  infer_instance

/-- A two-symbol two-day panel, sorted by `(symbol, date)`, for the C6
witness: on day 1 both symbols are eligible candidates. -/
def c6Panel : List PRow :=
  [⟨0, 0, 100, 100⟩, ⟨0, 1, 90, 90⟩, ⟨1, 0, 200, 200⟩, ⟨1, 1, 180, 180⟩]

/-- The annotated first-date row of symbol `1` in `c6Panel`: its trailing
high is `none`. -/
def c9Row : ARow := ⟨1, 0, 200, 200, none, none⟩

/-- Well-formedness of a single-instrument trade: it closes strictly
after it opens and records the day difference. -/
def tradeOk (t : STrade) : Prop :=
  t.entryDate < t.exitDate ∧ t.holdingDays = t.exitDate - t.entryDate

/-- State invariant for the daily fold: open positions predate every
remaining date, ledger trades are in order. -/
def pStateOk (ds : List ℤ) (st : PState) : Prop :=
  (∀ q ∈ st.positions, ∀ d ∈ ds, q.2.entryDate < d)
  ∧ (∀ t ∈ st.trades, t.entryDate < t.exitDate)

/-- The §8 scenario series: closes `[100,100,100,94,94,94,103]`. -/
def c10Rows : List SRow :=
  [⟨0, 100⟩, ⟨1, 100⟩, ⟨2, 100⟩, ⟨3, 94⟩, ⟨4, 94⟩, ⟨5, 94⟩, ⟨6, 103⟩]

/-- Exit rule: 3-day change up 3%, no stop, no take. -/
def c10X : XRule := ⟨3, 3/100, "up", none, none⟩

/-- The single trade the run on `c10Rows` produces. -/
def c10Trade : STrade := ⟨"X", "long", 3, 94, 6, 103, 9/94, 3, "rule_exit"⟩

/-- The single trade the portfolio run on `exPanel` produces. -/
def c4PTrade : PTrade := ⟨0, 1, 2, 90, 95, 1/18, "take_profit"⟩

/-! ## Trade metrics (`ReportGenerator._extra_metrics_from_trades`,
claim C8) -/
/-- The profit-factor value: a finite rational or `np.inf` (positive
infinity, a representable value, not an error). -/
inductive PFVal
  | fin (q : ℚ)
  | inf
  deriving DecidableEq, Repr

/-- A ledger row as the metrics code reads it: the `return` column and
the `holding_days` column. -/
structure MTrade where
  ret : ℚ
  holdingDays : ℚ
  deriving DecidableEq, Repr

/-- The record returned by `_extra_metrics_from_trades`. -/
structure Metrics where
  winRate : ℚ
  avgWin : ℚ
  avgLoss : ℚ
  profitFactor : PFVal
  expectancy : ℚ
  medianHold : ℚ
  deriving DecidableEq, Repr

/-- `Series.mean`. -/
def qMean (l : List ℚ) : ℚ := l.sum / l.length

/-- `Series.median`: middle element of the sorted values, or the average
of the two middle elements. -/
def medianQ (l : List ℚ) : ℚ :=
  let s := l.insertionSort (· ≤ ·)
  if s.length % 2 = 1 then s.getD (s.length / 2) 0
  else (s.getD (s.length / 2 - 1) 0 + s.getD (s.length / 2) 0) / 2

/-- `gross_profit = wins.sum() if len(wins) else 0.0` (line 30). -/
def grossProfitOf (rets : List ℚ) : ℚ :=
  if (rets.filter (fun r => decide (0 < r))).length = 0 then 0
  else (rets.filter (fun r => decide (0 < r))).sum

/-- `gross_loss = -losses.sum() if len(losses) else 0.0` (line 31). -/
def grossLossOf (rets : List ℚ) : ℚ :=
  if (rets.filter (fun r => decide (r ≤ 0))).length = 0 then 0
  else -(rets.filter (fun r => decide (r ≤ 0))).sum

/-- Line 32: `gross_profit / gross_loss` when `gross_loss > 0`, else
`np.inf` when `gross_profit > 0`, else `0.0`. -/
def profitFactorOf (rets : List ℚ) : PFVal :=
  if 0 < grossLossOf rets then PFVal.fin (grossProfitOf rets / grossLossOf rets)
  else if 0 < grossProfitOf rets then PFVal.inf
  else PFVal.fin 0

/-- `_extra_metrics_from_trades` (lines 14-43): the all-zero record on an
empty ledger, else win rate, average win/loss, profit factor, expectancy
and median holding days; `hasHold` models the
`"holding_days" in self.trades.columns` guard. -/
def extraMetrics (hasHold : Bool) (trades : List MTrade) : Metrics :=
  if trades = [] then ⟨0, 0, 0, PFVal.fin 0, 0, 0⟩
  else
    let r := trades.map MTrade.ret
    let wins := r.filter (fun x => decide (0 < x))
    let losses := r.filter (fun x => decide (x ≤ 0))
    let winRate := if r.length = 0 then 0 else (wins.length : ℚ) / r.length
    let avgWin := if wins.length = 0 then 0 else qMean wins
    let avgLoss := if losses.length = 0 then 0 else qMean losses
    let expectancy := winRate * avgWin + (1 - winRate) * avgLoss
    let medianHold := if hasHold then medianQ (trades.map MTrade.holdingDays) else 0
    ⟨winRate, avgWin, avgLoss, profitFactorOf r, expectancy, medianHold⟩

/-! ## Sharpe ratio (claim C7)

Two implementations exist: `calculate_sharpe_ratio` in
`nlp_backtest_workflow.py` (lines 12-17) and the inline computation in
`ReportGenerator.summary` (line 61).  Real-valued because of the square
roots and the real power; pandas `mean`/`std` (sample standard deviation,
`ddof=1`) on the non-null return values are modelled on the list of those
values. -/
/-- `Series.mean`. -/
noncomputable def meanR (l : List ℝ) : ℝ := l.sum / l.length

/-- Sample variance (`ddof=1`), pandas `Series.var`. -/
noncomputable def sampleVar (l : List ℝ) : ℝ :=
  (l.map (fun x => (x - meanR l) ^ 2)).sum / ((l.length : ℝ) - 1)

/-- `Series.std`. -/
noncomputable def stdR (l : List ℝ) : ℝ := Real.sqrt (sampleVar l)

/-- `daily_rf = (1 + risk_free_rate) ** (1 / 252) - 1` (line 15). -/
noncomputable def dailyRf (annual : ℝ) : ℝ := (1 + annual) ^ ((1 : ℝ) / 252) - 1

/-- `calculate_sharpe_ratio` of `nlp_backtest_workflow.py` (lines 12-17):
guard on zero std of the raw returns, then
`sqrt(252) * excess.mean() / excess.std()` with
`excess = returns - daily_rf`. -/
noncomputable def calculateSharpe (riskFree : ℝ) (returns : List ℝ) : ℝ :=
  if stdR returns = 0 then 0
  else
    Real.sqrt 252 * meanR (returns.map (fun r => r - dailyRf riskFree))
      / stdR (returns.map (fun r => r - dailyRf riskFree))

/-- The Sharpe computation of `ReportGenerator.summary` (line 61):
`return.mean() / return.std() * 252 ** 0.5`, zero when the std is zero —
with no risk-free adjustment. -/
noncomputable def reportSharpe (returns : List ℝ) : ℝ :=
  if stdR returns = 0 then 0
  else meanR returns / stdR returns * Real.sqrt 252

/-- Modelled from the spec: `sqrt(252) * mean(excess_daily_return) /
std(excess_daily_return)` where the excess daily return subtracts a daily
risk-free rate `drf`, and `0` when the return series' standard deviation
is `0`. -/
noncomputable def sharpeSpec (drf : ℝ) (returns : List ℝ) : ℝ :=
  if stdR returns = 0 then 0
  else
    Real.sqrt 252 * meanR (returns.map (fun r => r - drf))
      / stdR (returns.map (fun r => r - drf))

/-- The two-point return series `[1%, 3%]`. -/
noncomputable def c7Series : List ℝ := [1/100, 3/100]

/-! ### Theorems -/

/-! Basic lemmas about `listMaxQ`. -/
theorem listMaxQ_mem {l : List ℚ} {m : ℚ} (h : listMaxQ l = some m) : m ∈ l := by
  induction l with
  | nil => simp [listMaxQ] at h
  | cons x xs ih =>
    simp only [listMaxQ] at h
    cases hx : listMaxQ xs with
    | none =>
      rw [hx] at h
      simp at h
      simp [h]
    | some m' =>
      rw [hx] at h
      simp at h
      rcases max_choice x m' with hc | hc
      · rw [hc] at h; simp [h]
      · rw [hc] at h
        subst h
        exact List.mem_cons_of_mem _ (ih hx)

theorem le_listMaxQ {l : List ℚ} {x m : ℚ} (hx : x ∈ l) (h : listMaxQ l = some m) :
    x ≤ m := by
  induction l generalizing m with
  | nil => simp at hx
  | cons a xs ih =>
    cases hax : listMaxQ xs with
    | none =>
      have h' : a = m := by simpa [listMaxQ, hax] using h
      rcases List.mem_cons.1 hx with rfl | hmem
      · exact h'.le
      · cases xs with
        | nil => simp at hmem
        | cons b bs => simp [listMaxQ] at hax
    | some m' =>
      have h' : a ⊔ m' = m := by simpa [listMaxQ, hax] using h
      rcases List.mem_cons.1 hx with rfl | hmem
      · exact h' ▸ le_sup_left
      · exact le_trans (ih hmem hax) (h' ▸ le_sup_right)

/-! Index bookkeeping for the trailing window. -/
theorem trailingHighAt_window_mem {lb : ℕ} {closes : List ℚ} {i : ℕ} {m : ℚ}
    (h : trailingHighAt lb closes i = some m) :
    ∃ j, i - lb ≤ j ∧ j < i ∧ closes.get? j = some m := by
  have hmem : m ∈ (closes.take i).drop (i - lb) := listMaxQ_mem h
  rcases List.mem_iff_get?.1 hmem with ⟨n, hn⟩
  rw [List.get?_drop] at hn
  refine ⟨i - lb + n, Nat.le_add_right _ _, ?_, ?_⟩
  · have hlen := List.get?_eq_some.1 hn
    rcases hlen with ⟨hlt, _⟩
    have := hlt
    have hle : (closes.take i).length ≤ i := by
      simpa using List.length_take_le i closes
    omega
  · have hlt : i - lb + n < (closes.take i).length := (List.get?_eq_some.1 hn).1
    rw [List.get?_take] at hn
    · exact hn
    · have hle : (closes.take i).length ≤ i := by
        simpa using List.length_take_le i closes
      omega

theorem trailingHighAt_window_le {lb : ℕ} {closes : List ℚ} {i : ℕ} {m : ℚ}
    (h : trailingHighAt lb closes i = some m) :
    ∀ j x, i - lb ≤ j → j < i → closes.get? j = some x → x ≤ m := by
  intro j x hlo hhi hj
  have hjlen : j < closes.length := (List.get?_eq_some.1 hj).1
  have hmem : x ∈ (closes.take i).drop (i - lb) := by
    have hget : ((closes.take i).drop (i - lb)).get? (j - (i - lb)) = some x := by
      rw [List.get?_drop]
      have hq : i - lb + (j - (i - lb)) = j := by omega
      rw [hq, List.get?_take hhi]
      exact hj
    exact List.get?_mem hget
  exact le_listMaxQ hmem h

/-- The trailing window only looks at the prefix of the close series
before index `i`. -/
theorem trailingHighAt_take {lb : ℕ} (closes : List ℚ) (i : ℕ) :
    trailingHighAt lb closes i = trailingHighAt lb (closes.take i) i := by
  unfold trailingHighAt
  rw [List.take_take, min_self]

/-- Filtering a prefix of a list yields the corresponding prefix of the
filtered list. -/
theorem filter_take_len {α : Type} (p : α → Bool) :
    ∀ (l : List α) (k : ℕ),
      (l.filter p).take ((l.take k).filter p).length = (l.take k).filter p := by
  intro l
  induction l with
  | nil => intro k; simp
  | cons x xs ih =>
    intro k
    cases k with
    | zero => simp
    | succ k =>
      rw [List.take_succ_cons]
      by_cases hp : p x
      · simp only [List.filter_cons, hp, if_pos, List.length_cons, List.take_succ_cons]
        rw [ih]
      · have hx : p x = false := by simpa using hp
        simp only [List.filter_cons, hx, Bool.false_eq_true, if_false]
        exact ih k

/-- The first `symIdxOf panel k s` closes of symbol `s` are exactly the
closes of `s` among the first `k` panel rows: the trailing statistics of
the row at panel position `k` are a function of strictly earlier rows. -/
theorem symCloses_take (panel : List PRow) (s : ℕ) (k : ℕ) :
    (symCloses panel s).take (symIdxOf panel k s) = symCloses (panel.take k) s := by
  unfold symCloses symIdxOf
  rw [← List.map_take, filter_take_len]

/-- Pointwise description of `annotate`: the row at panel position `k`
keeps its `{symbol, date, open, close}` fields and receives the trailing
high of its own symbol series at its per-symbol index. -/
theorem annotate_get? (lb : ℕ) (panel : List PRow) (k : ℕ) :
    (annotate lb panel).get? k = (panel.get? k).map (fun r =>
      let th := trailingHighAt lb (symCloses panel r.sym) (symIdxOf panel k r.sym)
      ⟨r.sym, r.date, r.opn, r.close, th, th.map (fun h => r.opn / h - 1)⟩) := by
  unfold annotate
  rw [List.get?_map, List.get?_enum]
  cases panel.get? k <;> simp

/-- C1: in portfolio mode, for every instrument and every day `t` (the
per-symbol index of a panel row), `trailing_high[t]` is the maximum close
over the lookback window of strictly prior per-symbol days
`close[t-lookback .. t-1]` — the window never contains `close[t]` or any
later close (conjuncts 1 and 2: the witnessing index and every window
index are `< t`), the value is entirely determined by the strictly prior
panel rows `panel.take k` (conjunct 3), and the `drop_from_high` quantity
read by the entry-eligibility evaluation is computed from that
trailing high and the row's own open only (conjunct 4): no entry
evaluation at day `t` reads a price dated after `t`. -/
theorem c1_trailing_high_no_lookahead (lb : ℕ) (panel : List PRow) (k : ℕ)
    (a : ARow) (m : ℚ)
    (ha : (annotate lb panel).get? k = some a)
    (hm : a.trailingHigh = some m) :
    (∃ j, symIdxOf panel k a.sym - lb ≤ j ∧ j < symIdxOf panel k a.sym ∧
        (symCloses panel a.sym).get? j = some m)
    ∧ (∀ j x, symIdxOf panel k a.sym - lb ≤ j → j < symIdxOf panel k a.sym →
        (symCloses panel a.sym).get? j = some x → x ≤ m)
    ∧ a.trailingHigh
        = trailingHighAt lb (symCloses (panel.take k) a.sym) (symIdxOf panel k a.sym)
    ∧ a.dropFromHigh = some (a.opn / m - 1) := by
  rw [annotate_get?] at ha
  cases hr : panel.get? k with
  | none => rw [hr] at ha; simp at ha
  | some r =>
    rw [hr] at ha
    simp only [Option.map_some', Option.some.injEq] at ha
    subst ha
    simp only at hm ⊢
    refine ⟨trailingHighAt_window_mem hm, trailingHighAt_window_le hm, ?_, ?_⟩
    · rw [← symCloses_take, ← trailingHighAt_take]
    · rw [hm]; rfl

/-- Witness for C1 at a concrete two-day panel: on the second day of
symbol `0` the trailing high is the previous close `100`. -/
theorem c1_witness :
    (∃ j, symIdxOf c1Panel 1 c1Row.sym - 5 ≤ j ∧ j < symIdxOf c1Panel 1 c1Row.sym ∧
        (symCloses c1Panel c1Row.sym).get? j = some 100)
    ∧ (∀ j x, symIdxOf c1Panel 1 c1Row.sym - 5 ≤ j → j < symIdxOf c1Panel 1 c1Row.sym →
        (symCloses c1Panel c1Row.sym).get? j = some x → x ≤ 100)
    ∧ c1Row.trailingHigh
        = trailingHighAt 5 (symCloses (c1Panel.take 1) c1Row.sym) (symIdxOf c1Panel 1 c1Row.sym)
    ∧ c1Row.dropFromHigh = some (c1Row.opn / 100 - 1) :=
  c1_trailing_high_no_lookahead 5 c1Panel 1 c1Row 100 (by rfl) (by rfl)

/-- C2: in both simulators, when the take-profit condition and the
stop-loss condition hold simultaneously for an open position, the
recorded exit reason is `"take_profit"`: the portfolio exit decision
(`ret >= take_profit` checked before `ret <= -stop_loss`) returns
`"take_profit"`, and the single-instrument reason assignment returns
`"take_profit"` when the take-profit sub-signal fired regardless of the
stop-loss sub-signal, `"stop_loss"` only when take-profit did not fire,
and `"rule_exit"` when neither fired. -/
theorem c2_exit_priority_take_profit (ret tp sl : ℚ) (b : Bool)
    (h1 : tp ≤ ret) (h2 : ret ≤ -sl) :
    pExitReason ret tp sl = some "take_profit"
    ∧ sExitReason true b = "take_profit"
    ∧ sExitReason false true = "stop_loss"
    ∧ sExitReason false false = "rule_exit" := by
  refine ⟨?_, rfl, rfl, rfl⟩
  unfold pExitReason
  rw [if_pos h1]

/-- Witness for C2 at pathological thresholds where both exit conditions
hold at once (`take_profit = -1/5`, `stop_loss = 1/10`,
`ret = -3/20`). -/
theorem c2_witness :
    pExitReason (-3/20) (-1/5) (1/10) = some "take_profit"
    ∧ sExitReason true true = "take_profit"
    ∧ sExitReason false true = "stop_loss"
    ∧ sExitReason false false = "rule_exit" :=
  c2_exit_priority_take_profit (-3/20) (-1/5) (1/10) true (by norm_num)
    (by norm_num)

/-- Once cash is below the investment amount, the code's admission loop
admits nothing further (the skip leaves cash unchanged and the amount is
the same for every candidate). -/
theorem entrySelect_of_short (inv : ℚ) (l : List ARow) (cash : ℚ)
    (h : cash < inv) : entrySelect inv l cash = ([], cash) := by
  induction l with
  | nil => rfl
  | cons r rest ih => simp [entrySelect, h, ih]

/-- The same short-circuit for the spec-side admission loop. -/
theorem entrySelectSpec_of_short (inv : ℚ) (l : List ARow) (cash : ℚ) (k : ℕ)
    (h : cash < inv) : entrySelectSpec inv l cash k = ([], cash) := by
  induction l generalizing k with
  | nil => cases k <;> rfl
  | cons r rest ih =>
    cases k with
    | zero => rfl
    | succ k => simp [entrySelectSpec, h, ih]

/-- C3: skipping a cash-short candidate does not change which later
candidates can be admitted: the code's loop over `candidates.head(max_new)`
(`entrySelect` on the truncated list) admits exactly the same rows, and
leaves exactly the same cash, as the spec's semantics in which a
cash-skipped candidate consumes no admission slot and the scan continues
through the whole candidate list up to the day's cap
(`entrySelectSpec`).  The two coincide because the investment amount
`starting_capital * f` is the same for every candidate of a day, so a
cash skip is permanent within the day. -/
theorem c3_cash_skip_equivalence (inv : ℚ) (cand : List ARow) (cash : ℚ)
    (cap : ℕ) :
    entrySelect inv (cand.take cap) cash = entrySelectSpec inv cand cash cap := by
  induction cand generalizing cash cap with
  | nil => cases cap <;> rfl
  | cons r rest ih =>
    cases cap with
    | zero => rfl
    | succ k =>
      rw [List.take_succ_cons]
      by_cases h : cash < inv
      · rw [entrySelect_of_short _ _ _ h, entrySelectSpec_of_short _ _ _ _ h]
      · simp only [entrySelect, entrySelectSpec, if_neg h]
        rw [ih]

/-! ## The allocation-budget invariant (claim C5) -/
/-- The exit loop only removes positions. -/
theorem exitPhase_length_le (tp sl : ℚ) (dd : List ARow) (d : ℤ) :
    ∀ (ps : List (ℕ × Pos)) (cash : ℚ) (tr : List PTrade),
      (exitPhase tp sl dd d ps cash tr).1.length ≤ ps.length := by
  intro ps
  induction ps with
  | nil => intro cash tr; simp [exitPhase]
  | cons q rest ih =>
    intro cash tr
    obtain ⟨s, pos⟩ := q
    simp only [exitPhase]
    split
    · simpa using ih cash tr
    · split
      · simpa using ih cash tr
      · exact le_trans (ih _ _) (Nat.le_succ _)

/-- A dict assignment grows the position map by at most one entry. -/
theorem setPos_length_le (ps : List (ℕ × Pos)) (s : ℕ) (p : Pos) :
    (setPos ps s p).length ≤ ps.length + 1 := by
  induction ps with
  | nil => simp [setPos]
  | cons q rest ih =>
    obtain ⟨s', p'⟩ := q
    simp only [setPos]
    split
    · simp
    · simpa using Nat.succ_le_succ ih

/-- Applying the admitted entries grows the position map by at most the
number of admitted rows. -/
theorem entryApply_length_le (sc f : ℚ) (d : ℤ) :
    ∀ (adm : List ARow) (ps : List (ℕ × Pos)),
      (entryApply sc f d ps adm).length ≤ ps.length + adm.length := by
  intro adm
  induction adm with
  | nil => intro ps; simp [entryApply]
  | cons a rest ih =>
    intro ps
    have h1 := setPos_length_le ps a.sym ⟨a.opn, (sc * f) / a.opn, d⟩
    have h2 := ih (setPos ps a.sym ⟨a.opn, (sc * f) / a.opn, d⟩)
    simp only [entryApply, List.foldl_cons] at h2 ⊢
    simp only [List.length_cons]
    omega

/-- The admission loop admits at most as many rows as it scans. -/
theorem entrySelect_length_le (inv : ℚ) :
    ∀ (l : List ARow) (cash : ℚ), (entrySelect inv l cash).1.length ≤ l.length := by
  intro l
  induction l with
  | nil => intro cash; simp [entrySelect]
  | cons r rest ih =>
    intro cash
    simp only [entrySelect]
    split
    · exact le_trans (ih cash) (Nat.le_succ _)
    · simpa using ih (cash - inv)

/-- A day admits at most `max_new` candidates. -/
theorem entryAdmitted_length_le (dp sc f : ℚ) (dd : List ARow)
    (ps : List (ℕ × Pos)) (cash : ℚ) :
    (entryAdmitted dp sc f dd ps cash).1.length ≤ entryMaxNew f ps.length := by
  unfold entryAdmitted
  split
  · split
    · simp
    · refine le_trans (entrySelect_length_le _ _ _) ?_
      rw [List.length_take]
      exact min_le_left _ _
  · simp

/-- `open_count * f < 1` implies `(open_count + max_new) * f ≤ 1`:
the floor-division cap never lets the committed fraction pass `1`. -/
theorem maxNew_mul_le (f : ℚ) (hf : 0 < f) (L : ℕ)
    (hlt : (L : ℚ) * f < 1) :
    ((L + entryMaxNew f L : ℕ) : ℚ) * f ≤ 1 := by
  have havail : (0 : ℚ) < 1 - (L : ℚ) * f := by linarith
  have hq : (0 : ℚ) ≤ (1 - (L : ℚ) * f) / f := (div_pos havail hf).le
  have h1 : ((entryMaxNew f L : ℕ) : ℚ) ≤ (1 - (L : ℚ) * f) / f := by
    unfold entryMaxNew
    have hnn : (0 : ℤ) ≤ Int.floor ((1 - (L : ℚ) * f) / f) := Int.floor_nonneg.2 hq
    have hcast : (((Int.floor ((1 - (L : ℚ) * f) / f)).toNat : ℕ) : ℚ)
        = ((Int.floor ((1 - (L : ℚ) * f) / f) : ℤ) : ℚ) := by
      rw [← Int.toNat_of_nonneg hnn]
      push_cast
      rw [Int.toNat_of_nonneg hnn]
    rw [hcast]
    exact Int.floor_le _
  have h2 : ((entryMaxNew f L : ℕ) : ℚ) * f ≤ 1 - (L : ℚ) * f := by
    have := mul_le_mul_of_nonneg_right h1 hf.le
    rwa [div_mul_cancel₀ _ hf.ne'] at this
  push_cast
  linarith

/-- The budget bound is preserved by a day's exit phase. -/
theorem dayExitSt_bound {f : ℚ} (hf : 0 < f) (tp sl : ℚ) (ann : List ARow)
    (d : ℤ) (st : PState) (hst : (st.positions.length : ℚ) * f ≤ 1) :
    ((dayExitSt tp sl ann d st).positions.length : ℚ) * f ≤ 1 := by
  have hle : (dayExitSt tp sl ann d st).positions.length ≤ st.positions.length :=
    exitPhase_length_le tp sl _ d st.positions st.cash st.trades
  have hc : ((dayExitSt tp sl ann d st).positions.length : ℚ)
      ≤ (st.positions.length : ℚ) := by exact_mod_cast hle
  calc ((dayExitSt tp sl ann d st).positions.length : ℚ) * f
      ≤ (st.positions.length : ℚ) * f := mul_le_mul_of_nonneg_right hc hf.le
    _ ≤ 1 := hst

/-- The budget bound is preserved by a day's entry phase: no entry is
admitted that would push `open_count * f` past `1`. -/
theorem dayEntrySt_bound {f : ℚ} (hf : 0 < f) (dp sc : ℚ) (ann : List ARow)
    (d : ℤ) (st : PState) (hst : (st.positions.length : ℚ) * f ≤ 1) :
    ((dayEntrySt dp sc f ann d st).positions.length : ℚ) * f ≤ 1 := by
  by_cases hgate : (st.positions.length : ℚ) * f < 1
  · have hadm := entryAdmitted_length_le dp sc f
      (ann.filter (fun a => decide (a.date = d))) st.positions st.cash
    have hlen : (dayEntrySt dp sc f ann d st).positions.length
        ≤ st.positions.length + entryMaxNew f st.positions.length := by
      refine le_trans (entryApply_length_le sc f d _ st.positions) ?_
      omega
    have hb := maxNew_mul_le f hf st.positions.length hgate
    have hc : ((dayEntrySt dp sc f ann d st).positions.length : ℚ)
        ≤ ((st.positions.length + entryMaxNew f st.positions.length : ℕ) : ℚ) := by
      exact_mod_cast hlen
    calc ((dayEntrySt dp sc f ann d st).positions.length : ℚ) * f
        ≤ ((st.positions.length + entryMaxNew f st.positions.length : ℕ) : ℚ) * f :=
          mul_le_mul_of_nonneg_right hc hf.le
      _ ≤ 1 := hb
  · have hadm : entryAdmitted dp sc f (ann.filter (fun a => decide (a.date = d)))
        st.positions st.cash = ([], st.cash) := by
      unfold entryAdmitted
      rw [if_neg hgate]
    show ((entryApply sc f d st.positions (entryAdmitted dp sc f
        (ann.filter (fun a => decide (a.date = d))) st.positions st.cash).1).length : ℚ) * f ≤ 1
    rw [hadm]
    simpa [entryApply] using hst

/-- The budget bound is preserved by a full day. -/
theorem dayStep_bound {f : ℚ} (hf : 0 < f) (dp sc sl tp : ℚ) (ann : List ARow)
    (st : PState) (d : ℤ) (hst : (st.positions.length : ℚ) * f ≤ 1) :
    ((dayStep dp sc f sl tp ann st d).positions.length : ℚ) * f ≤ 1 := by
  have h1 := dayExitSt_bound hf tp sl ann d st hst
  have h2 := dayEntrySt_bound hf dp sc ann d _ h1
  exact h2

/-- C5: in portfolio mode, for every reachable state (after each day's
exit phase and after each day's entry phase), the committed allocation
`open_count * allocation_per_trade` never exceeds `1`; since entries only
ever grow the position map up to this day-level bound, no admission can
push the product past `1` (and a fortiori past `1 + ε` for any
`ε ≥ 0`). -/
theorem c5_allocation_bound (lb : ℕ) (dp f sl tp sc : ℚ) (panel : List PRow)
    (hf : 0 < f) (n : ℕ) :
    ((runPrefix lb dp f sl tp sc panel n).positions.length : ℚ) * f ≤ 1
    ∧ ∀ d : ℤ, ((dayExitSt tp sl (annotate lb panel) d
        (runPrefix lb dp f sl tp sc panel n)).positions.length : ℚ) * f ≤ 1 := by
  have hmain : ∀ m : ℕ,
      ((runPrefix lb dp f sl tp sc panel m).positions.length : ℚ) * f ≤ 1 := by
    intro m
    induction m with
    | zero => simp [runPrefix, initState]
    | succ m ih =>
      unfold runPrefix at ih ⊢
      rw [List.take_succ, List.foldl_append]
      cases hd : (datesOf panel)[m]? with
      | none => simpa using ih
      | some d =>
        simp only [Option.toList_some, List.foldl_cons, List.foldl_nil]
        exact dayStep_bound hf dp sc sl tp _ _ d ih
  exact ⟨hmain n, fun d => dayExitSt_bound hf tp sl _ d _ (hmain n)⟩

/-- Witness for C5 on `exPanel` with `f = 1/2` after all three days. -/
theorem c5_witness :
    ((runPrefix 5 (5/100) (1/2) (5/100) (5/100) 100000 exPanel 3).positions.length : ℚ)
        * (1/2) ≤ 1
    ∧ ((dayExitSt (5/100) (5/100) (annotate 5 exPanel) 2
        (runPrefix 5 (5/100) (1/2) (5/100) (5/100) 100000 exPanel 3)).positions.length : ℚ)
        * (1/2) ≤ 1 := by
  have h := c5_allocation_bound 5 (5/100) (1/2) (5/100) (5/100) 100000 exPanel
    (by norm_num) 3
  exact ⟨h.1, h.2 2⟩

/-- `annotate` keeps every row's symbol and date. -/
theorem annotate_map_symdate (lb : ℕ) (panel : List PRow) :
    (annotate lb panel).map (fun a => (a.sym, a.date))
      = panel.map (fun r => (r.sym, r.date)) := by
  unfold annotate
  rw [List.map_map]
  have h : ∀ kr : ℕ × PRow,
      ((fun a : ARow => (a.sym, a.date)) ∘ (fun kr : ℕ × PRow =>
        let k := kr.1
        let r := kr.2
        let th := trailingHighAt lb (symCloses panel r.sym) (symIdxOf panel k r.sym)
        (⟨r.sym, r.date, r.opn, r.close, th,
          th.map (fun h => r.opn / h - 1)⟩ : ARow))) kr
        = (kr.2.sym, kr.2.date) := fun kr => rfl
  rw [List.map_congr_left (fun kr _ => h kr)]
  have h2 : (fun kr : ℕ × PRow => (kr.2.sym, kr.2.date))
      = (fun r : PRow => (r.sym, r.date)) ∘ Prod.snd := rfl
  rw [h2, ← List.map_map, List.enum_map_snd]

/-- A lex-sorted deduplicated panel yields annotated rows that are
pairwise lex-ordered. -/
theorem annotate_pairwise_lex (lb : ℕ) (panel : List PRow)
    (hsort : panel.Pairwise rowLex) :
    (annotate lb panel).Pairwise (fun a b : ARow =>
      a.sym < b.sym ∨ (a.sym = b.sym ∧ a.date < b.date)) := by
  have hp : (panel.map (fun r => (r.sym, r.date))).Pairwise
      (fun p q : ℕ × ℤ => p.1 < q.1 ∨ (p.1 = q.1 ∧ p.2 < q.2)) := by
    rw [List.pairwise_map]
    exact hsort
  rw [← annotate_map_symdate lb panel, List.pairwise_map] at hp
  exact hp

/-- The rows of one day, in panel order, have strictly increasing
symbols: the day's candidate list is in ascending instrument-identifier
order. -/
theorem dayData_pairwise_sym (lb : ℕ) (panel : List PRow) (d : ℤ)
    (hsort : panel.Pairwise rowLex) :
    ((annotate lb panel).filter (fun a => decide (a.date = d))).Pairwise
      (fun a b : ARow => a.sym < b.sym) := by
  have h1 := (annotate_pairwise_lex lb panel hsort).filter
    (fun a => decide (a.date = d))
  refine h1.imp_of_mem ?_
  intro a b ha hb hab
  have hda : a.date = d := by simpa using (List.of_mem_filter ha)
  have hdb : b.date = d := by simpa using (List.of_mem_filter hb)
  rcases hab with h | ⟨_, hlt⟩
  · exact h
  · rw [hda, hdb] at hlt
    exact absurd hlt (lt_irrefl d)

/-- The admission loop admits a prefix of the scanned list. -/
theorem entrySelect_eq_take (inv : ℚ) :
    ∀ (l : List ARow) (cash : ℚ), ∃ k, (entrySelect inv l cash).1 = l.take k := by
  intro l
  induction l with
  | nil => intro cash; exact ⟨0, rfl⟩
  | cons r rest ih =>
    intro cash
    by_cases h : cash < inv
    · refine ⟨0, ?_⟩
      simp [entrySelect_of_short _ _ _ h]
    · rcases ih (cash - inv) with ⟨k, hk⟩
      refine ⟨k + 1, ?_⟩
      simp only [entrySelect, if_neg h, List.take_succ_cons, hk]

/-- With enough cash for every scanned candidate the loop admits them
all. -/
theorem entrySelect_full (inv : ℚ) (hinv : 0 ≤ inv) :
    ∀ (l : List ARow) (cash : ℚ), (l.length : ℚ) * inv ≤ cash →
      (entrySelect inv l cash).1 = l := by
  intro l
  induction l with
  | nil => intro cash _; rfl
  | cons r rest ih =>
    intro cash hcash
    have hlen : ((rest.length : ℚ) + 1) * inv ≤ cash := by
      have hcast : (((r :: rest).length : ℕ) : ℚ) = (rest.length : ℚ) + 1 := by
        simp [List.length_cons]
      rw [hcast] at hcash
      exact hcash
    have h1 : ¬ cash < inv := by
      have : (0 : ℚ) ≤ (rest.length : ℚ) * inv :=
        mul_nonneg (by positivity) hinv
      push_cast at hlen
      intro hlt
      nlinarith
    simp only [entrySelect, if_neg h1]
    rw [ih (cash - inv) (by linarith [hlen])]

/-- C6: on any day and from any simulator state, writing `cands` for the
day's eligible candidate rows and `max_new` for the floor-division cap:
the candidates are in strictly ascending instrument-identifier order
(given the panel sorted and deduplicated by `(symbol, date)`); at most
`max_new` rows are admitted; the admitted rows are an initial segment of
the candidate order; and with sufficient cash the admitted rows are
exactly the first `min(max_new, |cands|)` candidates. -/
theorem c6_admission_order (lb : ℕ) (dp sc f : ℚ) (panel : List PRow) (d : ℤ)
    (ps : List (ℕ × Pos)) (cash : ℚ)
    (hsort : panel.Pairwise rowLex) :
    (entryCands dp ((annotate lb panel).filter (fun a => decide (a.date = d))) ps).Pairwise
      (fun a b : ARow => a.sym < b.sym)
    ∧ (entryAdmitted dp sc f ((annotate lb panel).filter (fun a => decide (a.date = d)))
        ps cash).1.length ≤ entryMaxNew f ps.length
    ∧ (∃ k, (entryAdmitted dp sc f ((annotate lb panel).filter (fun a => decide (a.date = d)))
        ps cash).1
        = (entryCands dp ((annotate lb panel).filter (fun a => decide (a.date = d))) ps).take k)
    ∧ (0 ≤ sc * f →
        (((entryCands dp ((annotate lb panel).filter (fun a => decide (a.date = d))) ps).take
            (entryMaxNew f ps.length)).length : ℚ) * (sc * f) ≤ cash →
        (ps.length : ℚ) * f < 1 →
        (entryAdmitted dp sc f ((annotate lb panel).filter (fun a => decide (a.date = d)))
            ps cash).1
          = (entryCands dp ((annotate lb panel).filter (fun a => decide (a.date = d))) ps).take
              (entryMaxNew f ps.length)) := by
  have hpair : (entryCands dp ((annotate lb panel).filter (fun a => decide (a.date = d)))
      ps).Pairwise (fun a b : ARow => a.sym < b.sym) :=
    (dayData_pairwise_sym lb panel d hsort).filter _
  refine ⟨hpair, entryAdmitted_length_le _ _ _ _ _ _, ?_, ?_⟩
  · unfold entryAdmitted
    split
    · split
      · exact ⟨0, rfl⟩
      · rcases entrySelect_eq_take (sc * f)
          ((entryCands dp ((annotate lb panel).filter (fun a => decide (a.date = d))) ps).take
            (entryMaxNew f ps.length)) cash with ⟨k, hk⟩
        refine ⟨min k (entryMaxNew f ps.length), ?_⟩
        rw [hk, List.take_take]
    · exact ⟨0, rfl⟩
  · intro hinv hcash hgate
    unfold entryAdmitted
    rw [if_pos hgate]
    split
    · rename_i hc
      rw [hc]
      simp
    · exact entrySelect_full (sc * f) hinv _ cash hcash

/-- Witness for C6: the day-1 admission data of `c6Panel` from the empty
position map. -/
theorem c6_witness :
    (entryCands (5/100) ((annotate 5 c6Panel).filter (fun a => decide (a.date = 1)))
        []).Pairwise (fun a b : ARow => a.sym < b.sym)
    ∧ (entryAdmitted (5/100) 100000 (1/2)
        ((annotate 5 c6Panel).filter (fun a => decide (a.date = 1))) [] 100000).1.length
        ≤ entryMaxNew (1/2) ([] : List (ℕ × Pos)).length
    ∧ (∃ k, (entryAdmitted (5/100) 100000 (1/2)
        ((annotate 5 c6Panel).filter (fun a => decide (a.date = 1))) [] 100000).1
        = (entryCands (5/100) ((annotate 5 c6Panel).filter (fun a => decide (a.date = 1)))
            []).take k)
    ∧ (0 ≤ (100000 : ℚ) * (1/2) →
        (((entryCands (5/100) ((annotate 5 c6Panel).filter (fun a => decide (a.date = 1)))
            []).take (entryMaxNew (1/2) ([] : List (ℕ × Pos)).length)).length : ℚ)
            * ((100000 : ℚ) * (1/2)) ≤ 100000 →
        (([] : List (ℕ × Pos)).length : ℚ) * (1/2) < 1 →
        (entryAdmitted (5/100) 100000 (1/2)
            ((annotate 5 c6Panel).filter (fun a => decide (a.date = 1))) [] 100000).1
          = (entryCands (5/100) ((annotate 5 c6Panel).filter (fun a => decide (a.date = 1)))
              []).take (entryMaxNew (1/2) ([] : List (ℕ × Pos)).length)) :=
  c6_admission_order 5 (5/100) 100000 (1/2) c6Panel 1 [] 100000 (by decide)

/-! ## First-day ineligibility (claim C9) -/
/-- Everything the admission loop admits was an eligible candidate. -/
theorem entryAdmitted_subset (dp sc f : ℚ) (dd : List ARow)
    (ps : List (ℕ × Pos)) (cash : ℚ) :
    ∀ x ∈ (entryAdmitted dp sc f dd ps cash).1, x ∈ entryCands dp dd ps := by
  intro x hx
  unfold entryAdmitted at hx
  split at hx
  · split at hx
    · simp at hx
    · rcases entrySelect_eq_take (sc * f)
        ((entryCands dp dd ps).take (entryMaxNew f ps.length)) cash with ⟨k, hk⟩
      rw [hk] at hx
      exact (List.take_sublist _ _).subset ((List.take_sublist _ _).subset hx)
  · simp at hx

/-- Candidates pass the eligibility filter and come from the day's
rows. -/
theorem entryCands_eligible {dp : ℚ} {dd : List ARow} {ps : List (ℕ × Pos)}
    {x : ARow} (hx : x ∈ entryCands dp dd ps) :
    eligible dp x = true ∧ x ∈ dd := by
  unfold entryCands at hx
  have h1 := List.of_mem_filter hx
  have h2 := List.mem_of_mem_filter hx
  simp only [Bool.and_eq_true] at h1
  exact ⟨h1.1, h2⟩

/-- C9: in portfolio mode an instrument can never be admitted on the
first date at which it appears in the panel: its trailing high is `none`
(NaN) there, so `drop_from_high` is `none` and the eligibility comparison
is false rather than an error, and consequently the instrument's symbol
is never among the admitted entries of that day, from any simulator
state.  (`symIdxOf panel k a.sym = 0` says row `k` is the instrument's
first panel row; the `Nodup` hypothesis is the panel's `(symbol, date)`
uniqueness.) -/
theorem c9_first_day_ineligible (lb : ℕ) (dp sc f : ℚ) (panel : List PRow)
    (k : ℕ) (a : ARow)
    (ha : (annotate lb panel).get? k = some a)
    (hfirst : symIdxOf panel k a.sym = 0)
    (hnd : (panel.map (fun r => (r.sym, r.date))).Nodup) :
    eligible dp a = false
    ∧ ∀ (ps : List (ℕ × Pos)) (cash : ℚ),
        a.sym ∉ ((entryAdmitted dp sc f ((annotate lb panel).filter
          (fun b => decide (b.date = a.date))) ps cash).1.map ARow.sym) := by
  have hel : eligible dp a = false := by
    rw [annotate_get?] at ha
    cases hr : panel.get? k with
    | none => rw [hr] at ha; simp at ha
    | some r =>
      rw [hr] at ha
      simp only [Option.map_some', Option.some.injEq] at ha
      subst ha
      simp only at hfirst
      rw [hfirst]
      simp [trailingHighAt, listMaxQ, eligible]
  refine ⟨hel, ?_⟩
  intro ps cash hmem
  rcases List.mem_map.1 hmem with ⟨b, hb, hbs⟩
  have hbc := entryAdmitted_subset dp sc f _ ps cash b hb
  rcases entryCands_eligible hbc with ⟨hbel, hbd⟩
  have hbann : b ∈ annotate lb panel := List.mem_of_mem_filter hbd
  have hbdate : b.date = a.date := by
    simpa using List.of_mem_filter hbd
  rcases List.mem_iff_get?.1 hbann with ⟨k', hk'⟩
  have hpair : ((annotate lb panel).map (fun x => (x.sym, x.date))).get? k'
      = some (b.sym, b.date) := by
    rw [List.get?_map, hk']
    rfl
  have hpair2 : ((annotate lb panel).map (fun x => (x.sym, x.date))).get? k
      = some (a.sym, a.date) := by
    rw [List.get?_map, ha]
    rfl
  have hndA : ((annotate lb panel).map (fun x => (x.sym, x.date))).Nodup := by
    rw [annotate_map_symdate]
    exact hnd
  have hkk : k' = k := by
    have hlt : k' < ((annotate lb panel).map (fun x => (x.sym, x.date))).length :=
      (List.get?_eq_some.1 hpair).1
    refine List.get?_inj hlt hndA ?_
    rw [hpair, hpair2, hbs, hbdate]
  rw [hkk, ha] at hk'
  have hba : b = a := by
    injection hk' with h
    exact h.symm
  rw [hba, hel] at hbel
  exact Bool.false_ne_true hbel

/-- Witness for C9: symbol `1` of `c6Panel` on its first panel date. -/
theorem c9_witness :
    eligible (5/100) c9Row = false
    ∧ c9Row.sym ∉ ((entryAdmitted (5/100) 100000 (1/2)
        ((annotate 5 c6Panel).filter (fun b => decide (b.date = c9Row.date)))
        [] 100000).1.map ARow.sym) := by
  have h := c9_first_day_ineligible 5 (5/100) 100000 (1/2) c6Panel 2 c9Row
    (by rfl) (by rfl) (by decide)
  exact ⟨h.1, h.2 [] 100000⟩

/-! ## Trade-date invariants (claims C4 and C10) -/
/-- The signal rows carry the dates of the underlying price rows. -/
theorem mkSigRows_map_date (rows : List SRow) (eP : ℕ) (eThr : ℚ)
    (eDir : String) (xr : Option XRule) :
    (mkSigRows rows eP eThr eDir xr).map (fun sr => sr.date)
      = rows.map (fun r => r.date) := by
  unfold mkSigRows
  rw [List.map_map]
  have h : ∀ kr : ℕ × SRow,
      ((fun sr : SigRow => sr.date) ∘ (fun kr : ℕ × SRow =>
        let i := kr.1
        let r := kr.2
        let eSig := dirSignal eDir eThr (pctChange rows eP i)
        match xr with
        | none => (⟨r.date, r.close, eSig, false, false, false⟩ : SigRow)
        | some x =>
          let c := pctChange rows x.x_period i
          let base := dirSignal x.x_dir x.x_thr c
          let sl := slSignal x.stopLoss c
          let tp := tpSignal x.takeProfit c
          (⟨r.date, r.close, eSig, base || sl || tp, sl, tp⟩ : SigRow))) kr
        = kr.2.date := by
    intro kr
    cases xr <;> rfl
  rw [List.map_congr_left (fun kr _ => h kr)]
  have h2 : (fun kr : ℕ × SRow => kr.2.date)
      = (fun r : SRow => r.date) ∘ Prod.snd := rfl
  rw [h2, ← List.map_map, List.enum_map_snd]

/-- Date-sorted price rows give date-sorted signal rows. -/
theorem mkSigRows_pairwise (rows : List SRow) (eP : ℕ) (eThr : ℚ)
    (eDir : String) (xr : Option XRule)
    (hd : rows.Pairwise (fun a b => a.date < b.date)) :
    (mkSigRows rows eP eThr eDir xr).Pairwise (fun a b => a.date < b.date) := by
  have hp : (rows.map (fun r => r.date)).Pairwise (· < ·) := by
    rw [List.pairwise_map]
    exact hd
  rw [← mkSigRows_map_date rows eP eThr eDir xr, List.pairwise_map] at hp
  exact hp

/-- Invariant of the ledger loop: with strictly increasing dates, an open
position always predates every remaining row, so every appended trade is
well-formed. -/
theorem ledger_fold_inv (symbol action : String) :
    ∀ (l : List SigRow) (st : LState),
      l.Pairwise (fun a b => a.date < b.date) →
      (st.position ≠ 0 → ∀ sr ∈ l, st.entryDate < sr.date) →
      (∀ t ∈ st.trades, tradeOk t) →
      ∀ t ∈ (l.foldl (ledgerStep symbol action) st).trades, tradeOk t := by
  intro l
  induction l with
  | nil => intro st _ _ hacc t ht; exact hacc t ht
  | cons sr rest ih =>
    intro st hp hopen hacc
    rw [List.foldl_cons]
    have hp1 : ∀ b ∈ rest, sr.date < b.date := (List.pairwise_cons.1 hp).1
    have hp2 : rest.Pairwise (fun a b => a.date < b.date) :=
      (List.pairwise_cons.1 hp).2
    by_cases h0 : st.position = 0
    · by_cases hent : sr.entrySig
      · have hstep : ledgerStep symbol action st sr
            = ⟨if action = "buy" then 1 else -1, if action = "buy" then 1 else -1,
                sr.close, sr.date, st.trades⟩ := by
          simp [ledgerStep, h0, hent]
        rw [hstep]
        refine ih _ hp2 ?_ hacc
        intro _ b hb
        exact hp1 b hb
      · have hstep : ledgerStep symbol action st sr = st := by
          simp [ledgerStep, h0, hent]
        rw [hstep]
        refine ih _ hp2 ?_ hacc
        intro hpos
        exact absurd h0 hpos
    · by_cases hexit : sr.exitSig
      · have hstep : ledgerStep symbol action st sr
            = ⟨0, 0, 0, 0,
                st.trades ++ [⟨symbol, if st.side = 1 then "long" else "short",
                  st.entryDate, st.entryPrice, sr.date, sr.close,
                  (sr.close / st.entryPrice - 1) * st.side,
                  sr.date - st.entryDate, sExitReason sr.tpSig sr.slSig⟩]⟩ := by
          simp [ledgerStep, h0, hexit]
        rw [hstep]
        refine ih _ hp2 ?_ ?_
        · intro hpos
          exact absurd rfl hpos
        · intro t ht
          rcases List.mem_append.1 ht with h | h
          · exact hacc t h
          · rcases List.mem_singleton.1 h with rfl
            exact ⟨hopen h0 sr (List.mem_cons_self _ _), rfl⟩
      · have hstep : ledgerStep symbol action st sr = st := by
          simp [ledgerStep, h0, hexit]
        rw [hstep]
        refine ih _ hp2 ?_ hacc
        intro hpos b hb
        exact hopen h0 b (List.mem_cons_of_mem _ hb)

/-- Every trade of a single-instrument run on a strictly date-sorted
series is well-formed. -/
theorem singleRun_tradeOk (symbol action : String) (eP : ℕ) (eThr : ℚ)
    (eDir : String) (xr : Option XRule) (rows : List SRow)
    (hd : rows.Pairwise (fun a b => a.date < b.date)) :
    ∀ t ∈ (singleRun symbol action eP eThr eDir xr rows).trades, tradeOk t := by
  refine ledger_fold_inv symbol action _ _
    (mkSigRows_pairwise rows eP eThr eDir xr hd) ?_ ?_
  · intro hpos
    exact absurd rfl hpos
  · intro t ht
    simp at ht

/-! Portfolio-side trade-date invariant. -/
/-- Positions surviving the exit loop were already open. -/
theorem exitPhase_positions_subset (tp sl : ℚ) (dd : List ARow) (d : ℤ) :
    ∀ (ps : List (ℕ × Pos)) (cash : ℚ) (tr : List PTrade),
      ∀ q ∈ (exitPhase tp sl dd d ps cash tr).1, q ∈ ps := by
  intro ps
  induction ps with
  | nil => intro cash tr q hq; simpa [exitPhase] using hq
  | cons p rest ih =>
    intro cash tr q hq
    obtain ⟨s, pos⟩ := p
    simp only [exitPhase] at hq
    split at hq
    · rcases List.mem_cons.1 hq with rfl | h
      · exact List.mem_cons_self _ _
      · exact List.mem_cons_of_mem _ (ih _ _ q h)
    · split at hq
      · rcases List.mem_cons.1 hq with rfl | h
        · exact List.mem_cons_self _ _
        · exact List.mem_cons_of_mem _ (ih _ _ q h)
      · exact List.mem_cons_of_mem _ (ih _ _ q hq)

/-- Every trade present after the exit loop was in the ledger before, or
closes today a position that was open when the loop started. -/
theorem exitPhase_trades_mem (tp sl : ℚ) (dd : List ARow) (d : ℤ) :
    ∀ (ps : List (ℕ × Pos)) (cash : ℚ) (tr : List PTrade),
      ∀ t ∈ (exitPhase tp sl dd d ps cash tr).2.2,
        t ∈ tr ∨ ∃ q ∈ ps, t.entryDate = q.2.entryDate ∧ t.exitDate = d := by
  intro ps
  induction ps with
  | nil => intro cash tr t ht; left; simpa [exitPhase] using ht
  | cons p rest ih =>
    intro cash tr t ht
    obtain ⟨s, pos⟩ := p
    simp only [exitPhase] at ht
    split at ht
    · rcases ih _ _ t ht with h | ⟨q, hq, h1, h2⟩
      · left; exact h
      · right; exact ⟨q, List.mem_cons_of_mem _ hq, h1, h2⟩
    · split at ht
      · rcases ih _ _ t ht with h | ⟨q, hq, h1, h2⟩
        · left; exact h
        · right; exact ⟨q, List.mem_cons_of_mem _ hq, h1, h2⟩
      · rcases ih _ _ t ht with h | ⟨q, hq, h1, h2⟩
        · rcases List.mem_append.1 h with h' | h'
          · left; exact h'
          · rcases List.mem_singleton.1 h' with rfl
            right
            exact ⟨(s, pos), List.mem_cons_self _ _, rfl, rfl⟩
        · right; exact ⟨q, List.mem_cons_of_mem _ hq, h1, h2⟩

/-- A dict assignment only adds the assigned pair. -/
theorem setPos_mem : ∀ (ps : List (ℕ × Pos)) (s : ℕ) (p : Pos),
    ∀ q ∈ setPos ps s p, q ∈ ps ∨ q = (s, p) := by
  intro ps
  induction ps with
  | nil => intro s p q hq; right; simpa [setPos] using hq
  | cons r rest ih =>
    intro s p q hq
    obtain ⟨s', p'⟩ := r
    simp only [setPos] at hq
    split at hq
    · rcases List.mem_cons.1 hq with rfl | h
      · right; rfl
      · left; exact List.mem_cons_of_mem _ h
    · rcases List.mem_cons.1 hq with rfl | h
      · left; exact List.mem_cons_self _ _
      · rcases ih s p q h with h' | h'
        · left; exact List.mem_cons_of_mem _ h'
        · right; exact h'

/-- Positions after the entry block were open before, or were entered
today. -/
theorem entryApply_mem (sc f : ℚ) (d : ℤ) :
    ∀ (adm : List ARow) (ps : List (ℕ × Pos)),
      ∀ q ∈ entryApply sc f d ps adm, q ∈ ps ∨ q.2.entryDate = d := by
  intro adm
  induction adm with
  | nil => intro ps q hq; left; simpa [entryApply] using hq
  | cons a rest ih =>
    intro ps q hq
    simp only [entryApply, List.foldl_cons] at hq
    rcases ih _ q hq with h | h
    · rcases setPos_mem ps a.sym _ q h with h' | h'
      · left; exact h'
      · right; rw [h']
    · right; exact h

/-- One day of the portfolio loop preserves the invariant. -/
theorem dayStep_pOk (dp sc f sl tp : ℚ) (ann : List ARow) (d : ℤ)
    (ds : List ℤ) (st : PState) (hlt : ∀ d' ∈ ds, d < d')
    (hst : pStateOk (d :: ds) st) : pStateOk ds (dayStep dp sc f sl tp ann st d) := by
  obtain ⟨hpos, htr⟩ := hst
  constructor
  · intro q hq d' hd'
    rcases entryApply_mem sc f d _ _ q hq with h | h
    · have hin := exitPhase_positions_subset tp sl _ d st.positions st.cash st.trades q h
      exact hpos q hin d' (List.mem_cons_of_mem _ hd')
    · rw [h]
      exact hlt d' hd'
  · intro t ht
    rcases exitPhase_trades_mem tp sl _ d st.positions st.cash st.trades t ht with h | ⟨q, hq, h1, h2⟩
    · exact htr t h
    · rw [h1, h2]
      exact hpos q hq d (List.mem_cons_self _ _)

/-- The daily fold preserves well-formed trade dates. -/
theorem pfold_inv (dp sc f sl tp : ℚ) (ann : List ARow) :
    ∀ (ds : List ℤ) (st : PState), ds.Pairwise (· < ·) → pStateOk ds st →
      ∀ t ∈ (ds.foldl (dayStep dp sc f sl tp ann) st).trades,
        t.entryDate < t.exitDate := by
  intro ds
  induction ds with
  | nil => intro st _ hst t ht; exact hst.2 t ht
  | cons d rest ih =>
    intro st hp hst
    rw [List.foldl_cons]
    exact ih _ (List.pairwise_cons.1 hp).2
      (dayStep_pOk dp sc f sl tp ann d rest st (List.pairwise_cons.1 hp).1 hst)

/-- `sorted(unique(dates))` is strictly increasing. -/
theorem datesOf_pairwise (panel : List PRow) : (datesOf panel).Pairwise (· < ·) := by
  have hs : (datesOf panel).Pairwise (· ≤ ·) :=
    List.sorted_insertionSort (· ≤ ·) ((panel.map PRow.date).dedup)
  have hn : (datesOf panel).Pairwise (· ≠ ·) :=
    ((List.perm_insertionSort (· ≤ ·) ((panel.map PRow.date).dedup)).symm.nodup)
      (List.nodup_dedup _)
  exact (hs.and hn).imp (fun h => lt_of_le_of_ne h.1 h.2)

/-- Every trade of a portfolio run closes strictly after it opens. -/
theorem runSector_entry_lt_exit (lb : ℕ) (dp f sl tp sc : ℚ) (panel : List PRow) :
    ∀ t ∈ (runSector lb dp f sl tp sc panel).trades, t.entryDate < t.exitDate := by
  refine pfold_inv dp sc f sl tp (annotate lb panel) (datesOf panel)
    (initState sc) (datesOf_pairwise panel) ?_
  constructor
  · intro q hq
    simp [initState] at hq
  · intro t ht
    simp [initState] at ht

/-- C10: in single-instrument mode, entry and exit are mutually exclusive
branches of the same day's step — a flat state that opens never appends a
trade that day (first conjunct) — so a trade can never be opened and
closed on the same day: on a strictly date-sorted series every ledger
trade satisfies `entry_date < exit_date`, i.e. spans at least one day
(second conjunct). -/
theorem c10_no_same_day_close (symbol action : String) (eP : ℕ) (eThr : ℚ)
    (eDir : String) (xr : Option XRule) (rows : List SRow)
    (hd : rows.Pairwise (fun a b => a.date < b.date)) :
    (∀ (st : LState) (sr : SigRow), st.position = 0 →
        (ledgerStep symbol action st sr).trades = st.trades)
    ∧ ∀ t ∈ (singleRun symbol action eP eThr eDir xr rows).trades,
        t.entryDate < t.exitDate := by
  constructor
  · intro st sr h0
    unfold ledgerStep
    rw [if_pos h0]
    split <;> rfl
  · intro t ht
    exact (singleRun_tradeOk symbol action eP eThr eDir xr rows hd t ht).1

/-- C4 (amended): every single-instrument ledger row carries the full
`Trade` field set including `side` and `holding_days`, satisfies
`entry_date < exit_date`, and records `holding_days` as the whole-day
difference; every portfolio ledger row satisfies `entry_date < exit_date`
but its dict has **no** `side` and no `holding_days` key — the portfolio
ledger schema is the shorter `pTradeFields`. -/
theorem c4_trade_fields_amended (symbol action : String) (eP : ℕ) (eThr : ℚ)
    (eDir : String) (xr : Option XRule) (rows : List SRow)
    (lb : ℕ) (dp f sl tp sc : ℚ) (panel : List PRow)
    (hd : rows.Pairwise (fun a b => a.date < b.date)) :
    ("side" ∈ singleTradeKeys ∧ "holding_days" ∈ singleTradeKeys
      ∧ "side" ∉ pTradeFields ∧ "holding_days" ∉ pTradeFields)
    ∧ (∀ t ∈ (singleRun symbol action eP eThr eDir xr rows).trades,
        t.entryDate < t.exitDate ∧ t.holdingDays = t.exitDate - t.entryDate)
    ∧ (∀ t ∈ (runSector lb dp f sl tp sc panel).trades,
        t.entryDate < t.exitDate) := by
  refine ⟨⟨?_, ?_, ?_, ?_⟩, ?_, ?_⟩
  · decide
  · decide
  · decide
  · decide
  · exact singleRun_tradeOk symbol action eP eThr eDir xr rows hd
  · exact runSector_entry_lt_exit lb dp f sl tp sc panel

/-! Concrete runs for the witnesses of C4 and C10. -/
theorem dirSignal_up_eq (thr x : ℚ) :
    dirSignal "up" thr (some x) = decide (thr ≤ x) := rfl

theorem dirSignal_down_eq (thr x : ℚ) :
    dirSignal "down" thr (some x) = decide (x ≤ -thr) := rfl

theorem dirSignal_none_eq (dir : String) (thr : ℚ) :
    dirSignal dir thr none = false := rfl

theorem singleRunEval :
    (singleRun "X" "buy" 3 (5/100) "down" (some c10X) c10Rows).trades
      = [c10Trade] := by
  norm_num [singleRun, mkSigRows, ledgerStep, pctChange,
    dirSignal_up_eq, dirSignal_down_eq, dirSignal_none_eq,
    slSignal, tpSignal, sExitReason, c10Rows, c10X, c10Trade,
    List.enum, List.enumFrom, List.foldl, String.reduceEq]

theorem portRunEval :
    (runSector 5 (5/100) (1/2) (5/100) (5/100) 100000 exPanel).trades
      = [c4PTrade] := by
  norm_num [runSector, datesOf, exPanel, dayStep, dayExitSt,
    dayEntrySt, exitPhase, entryAdmitted, entryCands, entryMaxNew,
    entrySelect, entryApply, setPos, hasPos, eligible, annotate,
    trailingHighAt, symCloses, symIdxOf, listMaxQ, equityVal,
    pExitReason, initState, c4PTrade, List.enum, List.enumFrom, List.foldl,
    List.insertionSort, List.orderedInsert, List.dedup, List.pwFilter,
    List.filter, List.find?]

/-- Counterexample to C4 as stated: the portfolio run on `exPanel`
appends a trade to its ledger, and the dict appended by the portfolio
simulator has no `holding_days` and no `side` key, so not every ledger
record contains the full `Trade` field set. -/
theorem c4_counterexample :
    ("holding_days" ∉ pTradeFields ∧ "side" ∉ pTradeFields)
    ∧ (runSector 5 (5/100) (1/2) (5/100) (5/100) 100000 exPanel).trades ≠ [] := by
  refine ⟨⟨by decide, by decide⟩, ?_⟩
  rw [portRunEval]
  simp

/-- Witness for the amended C4 at the concrete runs of `c10Rows` and
`exPanel`. -/
theorem c4_witness :
    ("side" ∈ singleTradeKeys ∧ "holding_days" ∈ singleTradeKeys
      ∧ "side" ∉ pTradeFields ∧ "holding_days" ∉ pTradeFields)
    ∧ (c10Trade.entryDate < c10Trade.exitDate
        ∧ c10Trade.holdingDays = c10Trade.exitDate - c10Trade.entryDate)
    ∧ c4PTrade.entryDate < c4PTrade.exitDate := by
  have h := c4_trade_fields_amended "X" "buy" 3 (5/100) "down" (some c10X)
    c10Rows 5 (5/100) (1/2) (5/100) (5/100) 100000 exPanel (by decide)
  refine ⟨h.1, h.2.1 c10Trade ?_, h.2.2 c4PTrade ?_⟩
  · rw [singleRunEval]
    exact List.mem_singleton_self _
  · rw [portRunEval]
    exact List.mem_singleton_self _

/-- Witness for C10: a flat state stepping on an entry-signal day appends
nothing, and the concrete trade of the `c10Rows` run spans three days. -/
theorem c10_witness :
    (ledgerStep "X" "buy" ⟨0, 0, 0, 0, []⟩ ⟨0, 100, true, true, false, false⟩).trades
      = (⟨0, 0, 0, 0, []⟩ : LState).trades
    ∧ c10Trade.entryDate < c10Trade.exitDate := by
  have h := c10_no_same_day_close "X" "buy" 3 (5/100) "down" (some c10X) c10Rows
    (by decide)
  refine ⟨h.1 _ _ rfl, h.2 c10Trade ?_⟩
  rw [singleRunEval]
  exact List.mem_singleton_self _

/-- C8: on an empty ledger the metrics computation returns
`win_rate = 0`, `profit_factor = 0`, `expectancy = 0` and
`median_hold = 0` (it is a total function — no exception); and on a
non-empty ledger with zero gross loss and positive gross profit the
profit factor is the representable value `inf`. -/
theorem c8_metrics_edge_cases (b : Bool) (trades : List MTrade)
    (hne : trades ≠ [])
    (hgl : grossLossOf (trades.map MTrade.ret) = 0)
    (hgp : 0 < grossProfitOf (trades.map MTrade.ret)) :
    extraMetrics b [] = ⟨0, 0, 0, PFVal.fin 0, 0, 0⟩
    ∧ (extraMetrics b trades).profitFactor = PFVal.inf := by
  constructor
  · rfl
  · unfold extraMetrics
    rw [if_neg hne]
    show profitFactorOf (trades.map MTrade.ret) = PFVal.inf
    unfold profitFactorOf
    rw [hgl, if_neg (lt_irrefl 0), if_pos hgp]

/-- Witness for C8: the empty ledger and a one-win ledger. -/
theorem c8_witness :
    extraMetrics true [] = ⟨0, 0, 0, PFVal.fin 0, 0, 0⟩
    ∧ (extraMetrics true [⟨1/10, 2⟩]).profitFactor = PFVal.inf :=
  c8_metrics_edge_cases true [⟨1/10, 2⟩] (by simp)
    (by norm_num [grossLossOf, List.filter])
    (by norm_num [grossProfitOf, List.filter])

theorem sum_map_sub (l : List ℝ) (c : ℝ) :
    (l.map (fun x => x - c)).sum = l.sum - l.length * c := by
  induction l with
  | nil => simp
  | cons x xs ih =>
    simp only [List.map_cons, List.sum_cons, ih, List.length_cons]
    push_cast
    ring

theorem meanR_map_sub {l : List ℝ} (hl : l ≠ []) (c : ℝ) :
    meanR (l.map (fun x => x - c)) = meanR l - c := by
  unfold meanR
  rw [List.length_map, sum_map_sub]
  have hn : (l.length : ℝ) ≠ 0 := by
    simpa using fun h => hl (List.length_eq_zero.1 h)
  field_simp

/-- Shift invariance of the sample variance. -/
theorem sampleVar_map_sub {l : List ℝ} (hl : l ≠ []) (c : ℝ) :
    sampleVar (l.map (fun x => x - c)) = sampleVar l := by
  unfold sampleVar
  rw [List.length_map, meanR_map_sub hl c, List.map_map]
  have hfun : ((fun x : ℝ => (x - (meanR l - c)) ^ 2) ∘ fun x : ℝ => x - c)
      = fun x : ℝ => (x - meanR l) ^ 2 := by
    funext x
    simp only [Function.comp]
    ring
  rw [hfun]

theorem stdR_map_sub {l : List ℝ} (hl : l ≠ []) (c : ℝ) :
    stdR (l.map (fun x => x - c)) = stdR l := by
  unfold stdR
  rw [sampleVar_map_sub hl c]

theorem stdR_nil : stdR [] = 0 := by
  simp [stdR, sampleVar, meanR]

/-- C7 (amended): the workflow implementation agrees with the spec
formula using the daily risk-free rate derived from its annual rate; the
report-generator implementation agrees with the spec formula only at
risk-free rate `0` (it performs no risk-free adjustment); and the spec
formula itself reduces, by shift invariance of mean and standard
deviation, to `sqrt(252) * (mean - drf) / std` of the raw returns. -/
theorem c7_sharpe_amended (rf drf : ℝ) (returns : List ℝ) :
    calculateSharpe rf returns = sharpeSpec (dailyRf rf) returns
    ∧ reportSharpe returns = sharpeSpec 0 returns
    ∧ sharpeSpec drf returns
        = (if stdR returns = 0 then 0
            else Real.sqrt 252 * (meanR returns - drf) / stdR returns) := by
  refine ⟨rfl, ?_, ?_⟩
  · unfold reportSharpe sharpeSpec
    by_cases h : stdR returns = 0
    · rw [if_pos h, if_pos h]
    · rw [if_neg h, if_neg h]
      have hne : returns ≠ [] := fun hnil => h (hnil ▸ stdR_nil)
      rw [meanR_map_sub hne, stdR_map_sub hne, sub_zero]
      ring
  · unfold sharpeSpec
    by_cases h : stdR returns = 0
    · rw [if_pos h, if_pos h]
    · rw [if_neg h, if_neg h]
      have hne : returns ≠ [] := fun hnil => h (hnil ▸ stdR_nil)
      rw [meanR_map_sub hne, stdR_map_sub hne]

/-- Counterexample to C7 as stated: on the series `[1%, 3%]` the
report-generator Sharpe differs from the spec formula with the
risk-free subtraction at the workflow's annual rate `0.02`, because
`ReportGenerator.summary` subtracts no risk-free rate and
`(1.02)^(1/252) - 1 > 0`. -/
theorem c7_counterexample :
    reportSharpe c7Series ≠ sharpeSpec (dailyRf (2/100)) c7Series := by
  have hmean : meanR c7Series = 1/50 := by
    norm_num [meanR, c7Series]
  have hvar : sampleVar c7Series = 1/5000 := by
    norm_num [sampleVar, c7Series, meanR]
  have hstdpos : 0 < stdR c7Series := by
    rw [stdR, hvar]
    exact Real.sqrt_pos.2 (by norm_num)
  have hdrf : 0 < dailyRf (2/100) := by
    unfold dailyRf
    have h1 : (1 : ℝ) < (1 + 2/100) ^ ((1 : ℝ) / 252) :=
      Real.one_lt_rpow (by norm_num) (by norm_num)
    linarith
  have hsq : 0 < Real.sqrt 252 := Real.sqrt_pos.2 (by norm_num)
  have hne : c7Series ≠ [] := by simp [c7Series]
  intro heq
  unfold reportSharpe sharpeSpec at heq
  rw [if_neg hstdpos.ne', if_neg hstdpos.ne',
    meanR_map_sub hne, stdR_map_sub hne, hmean] at heq
  have hs := hstdpos.ne'
  have hq := hsq.ne'
  field_simp at heq

end NB
